import Mathlib

/-!
Verification of the core of `src/lib/disassembler.py` (class `Disassembler`):
the lazy disassembly cache (`lazy_disasm`), address checking (`check_addr`),
symbol registration (`add_symbol`), jump-table registration (`add_jmptable`)
and the control-flow-graph builder (`get_graph`).

Python dictionaries are embedded as association lists; the external `Binary`
collaborator (section index, stream reads) and the capstone decoder are
parameters of the embedding (`DisasmEnv`).  The `Graph` collaborator
(`lib/graph.py`) is not part of the sources; its operations are modelled
from the specification (see the `Graph` section below).
-/

namespace Reverse

/-! ### Association lists (embedding of python dict) -/

/-- Lookup in an association list (python `dict` read / `in` test). -/
def alookup {α β : Type} [DecidableEq α] : List (α × β) → α → Option β
  | [], _ => none
  | (a, b) :: r, k => if a = k then some b else alookup r k

/-- Insert-or-replace (python `d[k] = v`). -/
def aset {α β : Type} [DecidableEq α] : List (α × β) → α → β → List (α × β)
  | [], k, v => [(k, v)]
  | (a, b) :: r, k, v => if a = k then (k, v) :: r else (a, b) :: aset r k v

/-- Deletion (python `del d[k]`). -/
def adel {α β : Type} [DecidableEq α] : List (α × β) → α → List (α × β)
  | [], _ => []
  | (a, b) :: r, k => if a = k then r else (a, b) :: adel r k

/-! ### Data model

An `Instr` is a decoded instruction as produced by the external capstone
decoder: its address, its byte size, its classification through the
architecture module (`ARCH_UTILS.is_ret / is_uncond_jump / is_cond_jump`,
everything else — calls included — falling through to the sequential case
of `get_graph`), and its last operand `inst.operands[-1]` (the only operand
`get_graph` inspects): an immediate value or an indirect (register/memory)
operand. -/

/-- Classification of an instruction by the architecture module. -/
inductive ITag : Type
  | iret
  | ujump
  | cjump
  | iother
deriving DecidableEq

/-- The last operand of an instruction: `CS_OP_IMM` or anything else. -/
inductive Operand : Type
  | imm (v : Nat)
  | indirect
deriving DecidableEq

/-- A decoded instruction. -/
structure Instr : Type where
  address : Nat
  size : Nat
  tag : ITag
  lastOp : Operand
deriving DecidableEq

/-- A section as reported by `Binary.get_section_meta`: `(name, start, end)`. -/
structure Sect : Type where
  sname : String
  start : Nat
  stop : Nat
deriving DecidableEq

/-- Architecture: `get_graph` only distinguishes `CS_ARCH_MIPS` from the rest. -/
inductive Arch : Type
  | mips
  | other
deriving DecidableEq

/-- The external collaborators of the `Disassembler`: the section index and
stream reader of `Binary`, and the capstone decoder `md.disasm` (a pure
function from a byte buffer and a base address to the decoded instruction
list). -/
structure DisasmEnv : Type where
  arch : Arch
  secMeta : Nat → Option Sect
  stream : Nat → Nat → List Nat
  disasm : List Nat → Nat → List Instr

/-- The instruction cache `self.code`, keyed by address. -/
def Cache : Type := List (Nat × Instr)

instance : DecidableEq Cache := by
  unfold Cache
  infer_instance

/-! ### `lazy_disasm` (spec name `decode_at`), source lines 343–371 -/

/-- The caching loop of `lazy_disasm`: each produced instruction after the
first is inserted keyed by its own address, stopping at the first produced
address already cached (`if i.address in self.code: break`). -/
def insertRest (code : Cache) : List Instr → Cache
  | [] => code
  | i :: r =>
    match alookup code i.address with
    | some _ => code
    | none => insertRest (aset code i.address i) r

/-- `lazy_disasm(addr, stay_in_section)`.  Returns the decoded instruction
(or `none`), the updated cache, and the log of `section_stream_read`
calls performed (address and byte count), used to state that certain
paths never touch the underlying stream. -/
def lazy_disasm (env : DisasmEnv) (code : Cache) (addr : Nat) (stay : Int) :
    Option Instr × Cache × List (Nat × Nat) :=
  match env.secMeta addr with
  | none => (none, code, [])
  | some sec =>
    if stay ≠ -1 ∧ (sec.start : Int) ≠ stay then (none, code, [])
    else
      match alookup code addr with
      | some i => (some i, code, [])
      | none =>
        match env.disasm (env.stream addr 1024) addr with
        | [] => (none, code, [(addr, 1024)])
        | first :: rest => (some first, insertRest code rest, [(addr, 1024)])

/-! ### `check_addr`, source lines 132–137 -/

/-- The two exceptions `check_addr` can raise. -/
inductive ExcKind : Type
  | notExec
  | notAddr
deriving DecidableEq

/-- `check_addr(ctx, addr)`: `printData` is `ctx.print_data`, and
`(addrExists, isExec)` is the pair returned by `self.binary.check_addr(addr)`.
Returns the exception raised, if any.  Faithful to the source order: the
non-executable test runs before the existence test. -/
def check_addr (printData addrExists isExec : Bool) : Option ExcKind :=
  if !printData && !isExec then some .notExec
  else if !addrExists then some .notAddr
  else none

/-! ### `add_symbol`, source lines 91–99 -/

/-- The symbol tables `binary.symbols : name → addr` and
`binary.reverse_symbols : addr → name`. -/
structure SymState : Type where
  symbols : List (String × Nat)
  reverse_symbols : List (Nat × String)
deriving DecidableEq

/-- `add_symbol(addr, name)`: if the name is already bound, the old reverse
binding is deleted; then both directions are (re)installed. -/
def add_symbol (s : SymState) (addr : Nat) (name : String) : SymState :=
  let s1 :=
    match alookup s.symbols name with
    | some last => SymState.mk s.symbols (adel s.reverse_symbols last)
    | none => s
  SymState.mk (aset s1.symbols name addr) (aset s1.reverse_symbols addr name)

/-- The two symbol maps are exact inverses of each other. -/
def SymInverse (s : SymState) : Prop :=
  ∀ (n : String) (a : Nat),
    alookup s.symbols n = some a ↔ alookup s.reverse_symbols a = some n

/-! ### `add_jmptable` case accumulation, source lines 481–488

`add_jmptable` reads the table (`read_array`), then builds `all_cases`:
first every destination is mapped to `[]`, then the table is walked a
second time appending the running case number to its destination's list. -/

/-- First loop: `for ad in table: all_cases[ad] = []`. -/
def initCases (table : List Nat) : List (Nat × List Nat) :=
  table.foldl (fun m ad => aset m ad []) []

/-- Second loop: `for ad in table: all_cases[ad].append(case); case += 1`,
starting from case number `c`. -/
def fillCases (m : List (Nat × List Nat)) : List Nat → Nat → List (Nat × List Nat)
  | [], _ => m
  | ad :: r, c => fillCases (aset m ad ((alookup m ad).getD [] ++ [c])) r (c + 1)

/-- The `all_cases` mapping built by `add_jmptable` from the table it read. -/
def allCases (table : List Nat) : List (Nat × List Nat) :=
  fillCases (initCases table) table 0

/-- The case numbers (from `c`) at which `x` occurs in the table. -/
def idxs (x : Nat) : List Nat → Nat → List Nat
  | [], _ => []
  | a :: r, c => if a = x then c :: idxs x r (c + 1) else idxs x r (c + 1)

/-- Total number of case annotations over all destinations. -/
def sumLens (m : List (Nat × List Nat)) : Nat :=
  (m.map (fun p => p.2.length)).sum

/-! ### The `Graph` collaborator

Modelled from the spec: `lib/graph.py` is not among the sources; §3 of the
spec describes the graph as a node set plus two adjacency mappings
(`link_out`: address → ordered sequence of successors, `link_in`: address →
set of predecessors) maintained as exact inverses, with two auxiliary sets
of unconditional- and conditional-jump sources; §9 fixes the open
duplicate-edge policy to single-edge-with-merged-annotation, so edge
insertion below is idempotent.  Prefetched delay-slot instructions are
stored with the node in the source for rendering only and are not modelled. -/
structure Graph : Type where
  nodes : List Nat
  link_out : List (Nat × List Nat)
  link_in : List (Nat × List Nat)
  uncond_jumps_set : List Nat
  cond_jumps_set : List Nat
deriving DecidableEq

/-- The empty graph created at the top of `get_graph`. -/
def Graph.empty : Graph :=
  Graph.mk [] [] [] [] []

/-- Idempotent insertion into a list used as a set. -/
def listInsert (l : List Nat) (x : Nat) : List Nat :=
  if x ∈ l then l else l ++ [x]

/-- Add `x` to the set stored under key `k`. -/
def mapInsert (m : List (Nat × List Nat)) (k x : Nat) : List (Nat × List Nat) :=
  aset m k (listInsert ((alookup m k).getD []) x)

/-- Modelled from the spec: `Graph.add_node` — register the instruction's
address as a node. -/
def Graph.addNode (g : Graph) (a : Nat) : Graph :=
  Graph.mk (listInsert g.nodes a) g.link_out g.link_in g.uncond_jumps_set g.cond_jumps_set

/-- Modelled from the spec: record an edge `a → b` in both adjacency
mappings (kept as exact inverses). -/
def Graph.addEdge (g : Graph) (a b : Nat) : Graph :=
  Graph.mk g.nodes (mapInsert g.link_out a b) (mapInsert g.link_in b a)
    g.uncond_jumps_set g.cond_jumps_set

/-- Modelled from the spec: `Graph.set_next(inst, nxt)` — add the node and
a single successor edge. -/
def Graph.setNext (g : Graph) (inst : Instr) (nxt : Nat) : Graph :=
  (g.addNode inst.address).addEdge inst.address nxt

/-- Modelled from the spec: `Graph.set_cond_next(inst, nxt_jmp, direct_nxt)`
— add the node and its taken and fallthrough successor edges. -/
def Graph.setCondNext (g : Graph) (inst : Instr) (nxtJmp directNxt : Nat) : Graph :=
  (((g.addNode inst.address).addEdge inst.address nxtJmp).addEdge inst.address directNxt)

/-- Modelled from the spec: `Graph.set_jmptable_next(inst, table)` — add the
node and one successor edge per table entry. -/
def Graph.setJmptableNext (g : Graph) (inst : Instr) (table : List Nat) : Graph :=
  table.foldl (fun g2 t => g2.addEdge inst.address t) (g.addNode inst.address)

/-- Record an address in the unconditional-jump source set. -/
def Graph.addUncond (g : Graph) (a : Nat) : Graph :=
  Graph.mk g.nodes g.link_out g.link_in (listInsert g.uncond_jumps_set a) g.cond_jumps_set

/-- Record an address in the conditional-jump source set. -/
def Graph.addCond (g : Graph) (a : Nat) : Graph :=
  Graph.mk g.nodes g.link_out g.link_in g.uncond_jumps_set (listInsert g.cond_jumps_set a)

/-! ### Edge retraction on decode failure, source lines 396–406

When a popped address fails to decode, `get_graph` removes the edges from
every recorded predecessor (`link_in[ad]`), drops predecessors whose
outgoing list became empty, and drops `ad`'s incoming entry.  The python
`list.remove` removes the first occurrence and is embedded as `List.erase`;
the python code would raise `KeyError` where a predecessor has no outgoing
entry, a state unreachable under the graph invariant — there the embedding
simply produces and then drops an empty entry. -/
def Graph.retract (g : Graph) (ad : Nat) : Graph :=
  match alookup g.link_in ad with
  | none => g
  | some preds =>
    let lo1 := preds.foldl
      (fun lo i => aset lo i (((alookup lo i).getD []).erase ad)) g.link_out
    let lo2 := preds.foldl
      (fun lo i => if (alookup lo i).getD [] = [] then adel lo i else lo) lo1
    Graph.mk g.nodes lo2 (adel g.link_in ad) g.uncond_jumps_set g.cond_jumps_set

/-- The adjacency well-formedness maintained by the modelled graph
operations: outgoing successor lists are duplicate-free and nonempty, every
outgoing edge is mirrored in the predecessor mapping, predecessor sets are
duplicate-free, and both mappings have unique keys (python dicts). -/
def GraphInv (g : Graph) : Prop :=
  (∀ pr ∈ g.link_out, pr.2.Nodup ∧ pr.2 ≠ []) ∧
  (∀ pr ∈ g.link_out, ∀ t ∈ pr.2, pr.1 ∈ (alookup g.link_in t).getD []) ∧
  (∀ q ∈ g.link_in, q.2.Nodup) ∧
  (g.link_out.map Prod.fst).Nodup ∧
  (g.link_in.map Prod.fst).Nodup

/-! ### `get_graph`, source lines 379–470 -/

/-- The worklist state of `get_graph`: the graph under construction, the
explicit stack of pending addresses, and the instruction cache (threaded
because `lazy_disasm` and the MIPS delay-slot prefetch fill it). -/
structure CfgState : Type where
  gph : Graph
  stack : List Nat
  code : Cache
deriving DecidableEq

/-- One iteration of the `while stack` loop, for popped address `ad` and
remaining stack `rest`.  Returns `none` for the `AttributeError` raised on
MIPS when a conditional jump's delay-slot prefetch fails and
`prefetch.address` is read from `None` (source line 442). -/
def processOne (env : DisasmEnv) (jt : List (Nat × List Nat)) (s : CfgState)
    (ad : Nat) (rest : List Nat) : Option CfgState :=
  match lazy_disasm env s.code ad (-1) with
  | (none, code1, _) =>
    some (CfgState.mk (s.gph.retract ad) rest code1)
  | (some inst, code1, _) =>
    if inst.address ∈ s.gph.nodes then
      some (CfgState.mk s.gph rest code1)
    else
      match inst.tag with
      | .iret =>
        some (CfgState.mk (s.gph.addNode inst.address) rest
          (if env.arch = .mips then
            (lazy_disasm env code1 (inst.address + inst.size) (-1)).2.1
          else code1))
      | .ujump =>
        match inst.lastOp with
        | .imm nxt =>
          some (CfgState.mk ((s.gph.addUncond ad).setNext inst nxt) (nxt :: rest)
            (if env.arch = .mips then
              (lazy_disasm env code1 (inst.address + inst.size) (-1)).2.1
            else code1))
        | .indirect =>
          match alookup jt inst.address with
          | some table =>
            some (CfgState.mk ((s.gph.addUncond ad).setJmptableNext inst table)
              (table.reverse ++ rest)
              (if env.arch = .mips then
                (lazy_disasm env code1 (inst.address + inst.size) (-1)).2.1
              else code1))
          | none =>
            some (CfgState.mk ((s.gph.addUncond ad).addNode inst.address) rest
              (if env.arch = .mips then
                (lazy_disasm env code1 (inst.address + inst.size) (-1)).2.1
              else code1))
      | .cjump =>
        match inst.lastOp with
        | .imm nxtJmp =>
          if env.arch = .mips then
            match (lazy_disasm env code1 (inst.address + inst.size) (-1)).1 with
            | none => none
            | some p =>
              some (CfgState.mk
                ((s.gph.addCond ad).setCondNext inst nxtJmp (p.address + p.size))
                (nxtJmp :: (p.address + p.size) :: rest)
                (lazy_disasm env code1 (inst.address + inst.size) (-1)).2.1)
          else
            some (CfgState.mk
              ((s.gph.addCond ad).setCondNext inst nxtJmp (inst.address + inst.size))
              (nxtJmp :: (inst.address + inst.size) :: rest) code1)
        | .indirect =>
          some (CfgState.mk ((s.gph.addCond ad).addNode inst.address) rest
            (if env.arch = .mips then
              (lazy_disasm env code1 (inst.address + inst.size) (-1)).2.1
            else code1))
      | .iother =>
        some (CfgState.mk (s.gph.setNext inst (inst.address + inst.size))
          ((inst.address + inst.size) :: rest) code1)

/-- The result policy of `get_graph` (source lines 460–461): an empty node
set yields `None` instead of a graph. -/
def finishCfg (s : CfgState) : Option Graph :=
  if s.gph.nodes = [] then none else some s.gph

/-- Outcome of running the worklist loop with bounded fuel. -/
inductive CfgOut : Type
  | done (g : Option Graph)
  | crashed
  | outOfFuel
deriving DecidableEq

/-- Fuel-bounded execution of the `while stack` loop of `get_graph`. -/
def cfgRun (env : DisasmEnv) (jt : List (Nat × List Nat)) : Nat → CfgState → CfgOut
  | 0, s =>
    match s.stack with
    | [] => .done (finishCfg s)
    | _ :: _ => .outOfFuel
  | n + 1, s =>
    match s.stack with
    | [] => .done (finishCfg s)
    | ad :: rest =>
      match processOne env jt s ad rest with
      | none => .crashed
      | some s2 => cfgRun env jt n s2

/-- `get_graph(entry_addr)`: run the worklist loop from a singleton stack. -/
def get_graph (env : DisasmEnv) (jt : List (Nat × List Nat)) (code : Cache)
    (fuel : Nat) (entry : Nat) : CfgOut :=
  cfgRun env jt fuel (CfgState.mk Graph.empty [entry] code)

/-! ### Termination bookkeeping for the worklist loop -/

/-- Length of the longest registered jump table. -/
def tabMax (jt : List (Nat × List Nat)) : Nat :=
  jt.foldr (fun p m => max p.2.length m) 0

/-- Upper bound on the number of addresses a single loop iteration can
push: two for a conditional jump, or one table's worth of entries. -/
def maxPush (jt : List (Nat × List Nat)) : Nat :=
  max 2 (tabMax jt)

/-- Every instruction the decoder can produce has its address below `B`
(sections, hence decodable code, occupy a bounded address range). -/
def EnvBound (env : DisasmEnv) (B : Nat) : Prop :=
  ∀ d a i, i ∈ env.disasm d a → i.address < B

/-- Well-formedness of a worklist state under the address bound `B`. -/
def CfgInv (B : Nat) (s : CfgState) : Prop :=
  s.gph.nodes.Nodup ∧ (∀ a ∈ s.gph.nodes, a < B) ∧
  (∀ k i, alookup s.code k = some i → i.address < B)

/-- Termination measure: pending worklist entries plus the capacity for
future pushes, which shrinks every time a node is expanded. -/
def cfgMeasure (P B : Nat) (s : CfgState) : Nat :=
  s.stack.length + P * (B - s.gph.nodes.length)

/-! ### Concrete instantiations used to witness the theorems -/

/-- A one-section environment whose decoder yields a single sequential
instruction at the requested address. -/
def envSeq : DisasmEnv :=
  DisasmEnv.mk .other (fun _ => some (Sect.mk "" 0 100)) (fun _ _ => [0])
    (fun _ a => [Instr.mk a 1 .iother .indirect])

/-- Like `envSeq` but the decoder produces two consecutive one-byte
instructions per pass. -/
def envTwo : DisasmEnv :=
  DisasmEnv.mk .other (fun _ => some (Sect.mk "" 0 100)) (fun _ _ => [0])
    (fun _ a => [Instr.mk a 1 .iother .indirect, Instr.mk (a + 1) 1 .iother .indirect])

/-- An environment whose decoder yields an indirect unconditional jump. -/
def envUJ : DisasmEnv :=
  DisasmEnv.mk .other (fun _ => some (Sect.mk "" 0 100)) (fun _ _ => [0])
    (fun _ a => [Instr.mk a 2 .ujump .indirect])

/-- An environment with no sections at all: every decode fails. -/
def envNone : DisasmEnv :=
  DisasmEnv.mk .other (fun _ => none) (fun _ _ => []) (fun _ _ => [])

/-- A MIPS environment with one four-byte section at address 0 holding a
conditional jump whose delay slot (address 4) is outside every section. -/
def envMips : DisasmEnv :=
  DisasmEnv.mk .mips (fun a => if a = 0 then some (Sect.mk "" 0 3) else none)
    (fun _ _ => [0]) (fun _ a => [Instr.mk a 4 .cjump (.imm 20)])

/-- A bounded environment: addresses below 4 decode to a one-byte sequential
instruction, everything else fails. -/
def envBounded : DisasmEnv :=
  DisasmEnv.mk .other (fun a => if a < 4 then some (Sect.mk "" 0 3) else none)
    (fun _ _ => []) (fun _ a => if a < 4 then [Instr.mk a 1 .iother .indirect] else [])

/-- A concrete graph used to witness the retraction theorem: nodes 1 and 2
both point to 5, node 2 also points to 3. -/
def graphW : Graph :=
  Graph.mk [1, 2, 5] [(1, [5]), (2, [5, 3])] [(5, [1, 2]), (3, [2])] [] []

/-! ## Association-list lemmas -/

theorem alookup_aset_self {α β : Type} [DecidableEq α] (m : List (α × β)) (k : α) (v : β) :
    alookup (aset m k v) k = some v := by
  induction m with
  | nil => simp [aset, alookup]
  | cons p r ih =>
    obtain ⟨a, b⟩ := p
    by_cases h : a = k
    · simp [aset, alookup, h]
    · simp [aset, alookup, h, ih]

theorem alookup_aset_other {α β : Type} [DecidableEq α] (m : List (α × β)) (k x : α) (v : β)
    (hx : x ≠ k) : alookup (aset m k v) x = alookup m x := by
  have hkx : k ≠ x := Ne.symm hx
  induction m with
  | nil => simp [aset, alookup, hkx]
  | cons p r ih =>
    obtain ⟨a, b⟩ := p
    by_cases h : a = k
    · subst h
      simp [aset, alookup, hkx]
    · simp only [aset, if_neg h]
      by_cases h2 : a = x
      · simp [alookup, h2]
      · simp [alookup, h2, ih]

theorem alookup_adel_self {α β : Type} [DecidableEq α] (m : List (α × β)) (k : α)
    (hnd : (m.map Prod.fst).Nodup) : alookup (adel m k) k = none := by
  induction m with
  | nil => simp [adel, alookup]
  | cons p r ih =>
    obtain ⟨a, b⟩ := p
    simp only [List.map_cons, List.nodup_cons] at hnd
    by_cases h : a = k
    · subst h
      cases hopt : alookup r a with
      | none => simp [adel, hopt]
      | some v =>
        exfalso
        have hmem : a ∈ r.map Prod.fst := by
          clear ih hnd
          induction r with
          | nil => simp [alookup] at hopt
          | cons q s ihs =>
            obtain ⟨c, d⟩ := q
            by_cases hc : c = a
            · simp [hc]
            · simp only [alookup, if_neg hc] at hopt
              simp [ihs hopt]
        exact hnd.1 hmem
    · simp [adel, h, alookup, ih hnd.2]

theorem alookup_adel_other {α β : Type} [DecidableEq α] (m : List (α × β)) (k x : α)
    (hx : x ≠ k) : alookup (adel m k) x = alookup m x := by
  have hkx : k ≠ x := Ne.symm hx
  induction m with
  | nil => simp [adel]
  | cons p r ih =>
    obtain ⟨a, b⟩ := p
    by_cases h : a = k
    · subst h
      simp [adel, alookup, hkx]
    · by_cases h2 : a = x
      · subst h2
        simp [adel, h, alookup, hx]
      · simp [adel, h, alookup, h2, ih]

theorem alookup_mem {α β : Type} [DecidableEq α] (m : List (α × β)) (k : α) (v : β)
    (h : alookup m k = some v) : (k, v) ∈ m := by
  induction m with
  | nil => simp [alookup] at h
  | cons p r ih =>
    obtain ⟨a, b⟩ := p
    by_cases ha : a = k
    · subst ha
      rw [alookup, if_pos rfl] at h
      injection h with h
      subst h
      exact List.mem_cons_self _ _
    · rw [alookup, if_neg ha] at h
      exact List.mem_cons_of_mem _ (ih h)

/-! ## Lemmas about the cache-filling loop of `lazy_disasm` -/

theorem insertRest_preserve (code : Cache) (l : List Instr) (k : Nat) (v : Instr)
    (h : alookup code k = some v) : alookup (insertRest code l) k = some v := by
  induction l generalizing code with
  | nil => simpa [insertRest] using h
  | cons i r ih =>
    rw [insertRest]
    cases hc : alookup code i.address with
    | some w => exact h
    | none =>
      have hk : k ≠ i.address := by
        intro he
        rw [he, hc] at h
        exact Option.noConfusion h
      exact ih _ ((alookup_aset_other code i.address k i hk).trans h)

theorem insertRest_other (code : Cache) (l : List Instr) (k : Nat)
    (h : k ∉ l.map Instr.address) : alookup (insertRest code l) k = alookup code k := by
  induction l generalizing code with
  | nil => simp [insertRest]
  | cons i r ih =>
    simp only [List.map_cons, List.mem_cons, not_or] at h
    rw [insertRest]
    cases hc : alookup code i.address with
    | some w => rfl
    | none =>
      rw [ih _ h.2]
      exact alookup_aset_other code i.address k i h.1

theorem insertRest_mem (code : Cache) (l : List Instr)
    (hfresh : ∀ i ∈ l, alookup code i.address = none)
    (hnd : (l.map Instr.address).Nodup) :
    ∀ i ∈ l, alookup (insertRest code l) i.address = some i := by
  induction l generalizing code with
  | nil => intro i hi; exact absurd hi (List.not_mem_nil i)
  | cons j r ih =>
    simp only [List.map_cons, List.nodup_cons] at hnd
    intro i hi
    have hj : alookup code j.address = none := hfresh j (List.mem_cons_self j r)
    rw [insertRest, hj]
    rcases List.mem_cons.mp hi with he | hr
    · subst he
      rw [insertRest_other _ _ _ hnd.1]
      exact alookup_aset_self code i.address i
    · refine ih _ ?_ hnd.2 i hr
      intro i2 hi2
      have hne : i2.address ≠ j.address := by
        intro he
        exact hnd.1 (he ▸ List.mem_map_of_mem Instr.address hi2)
      rw [alookup_aset_other code j.address i2.address j hne]
      exact hfresh i2 (List.mem_cons_of_mem j hi2)

theorem insertRest_lookup_source (code : Cache) (l : List Instr) (k : Nat) (w : Instr)
    (h : alookup (insertRest code l) k = some w) :
    alookup code k = some w ∨ w ∈ l := by
  induction l generalizing code with
  | nil => exact Or.inl (by simpa [insertRest] using h)
  | cons i r ih =>
    rw [insertRest] at h
    cases hc : alookup code i.address with
    | some v =>
      rw [hc] at h
      exact Or.inl h
    | none =>
      rw [hc] at h
      rcases ih _ h with hsrc | hmem
      · by_cases hk : k = i.address
        · subst hk
          rw [alookup_aset_self] at hsrc
          injection hsrc with hsrc
          exact Or.inr (hsrc ▸ List.mem_cons_self i r)
        · rw [alookup_aset_other code i.address k i hk] at hsrc
          exact Or.inl hsrc
      · exact Or.inr (List.mem_cons_of_mem i hmem)

/-! ## C8 — section crossing refusal -/

/-- C8: for every address whose covering section's start differs from a
supplied `stay_in_section` bound (≠ -1), `lazy_disasm` returns not-found,
leaves the cache unchanged, and performs no stream read (so the decoder is
never invoked): it never returns an instruction from a different section. -/
theorem C8_section_refusal (env : DisasmEnv) (code : Cache) (addr : Nat)
    (stay : Int) (sec : Sect) (hm : env.secMeta addr = some sec)
    (hs : stay ≠ -1) (hd : (sec.start : Int) ≠ stay) :
    lazy_disasm env code addr stay = (none, code, []) := by
  rw [lazy_disasm, hm]
  simp [hs, hd]

theorem C8_section_refusal_witness :
    lazy_disasm envSeq [] 5 7 = (none, [], []) :=
  C8_section_refusal envSeq [] 5 7 (Sect.mk "" 0 100) rfl (by decide) (by decide)

/-! ## C9 — `check_addr` error selection

The claim states that a nonexistent address is always reported as
`ExcNotAddr`.  The source tests the non-executable condition first, so a
nonexistent address (whose collaborator answer is `(False, False)`) with
`print_data` false is reported as `ExcNotExec`. -/

/-- C9 counterexample: for a nonexistent, non-executable address and an
operation requiring code, `check_addr` raises `ExcNotExec`, not the lookup
failure `ExcNotAddr` the claim demands. -/
theorem C9_counterexample :
    check_addr false false false = some ExcKind.notExec ∧
      check_addr false false false ≠ some ExcKind.notAddr := by
  decide

/-- C9 amended: `check_addr` raises `ExcNotExec` exactly when the operation
requires code (`print_data` false) and the section is reported
non-executable — including for nonexistent addresses — and raises
`ExcNotAddr` exactly when the address does not exist and no `ExcNotExec`
fired (i.e. `print_data` is true or the section is reported executable). -/
theorem C9_check_addr_amended (printData addrExists isExec : Bool) :
    (check_addr printData addrExists isExec = some ExcKind.notExec ↔
      printData = false ∧ isExec = false) ∧
    (check_addr printData addrExists isExec = some ExcKind.notAddr ↔
      addrExists = false ∧ (printData = true ∨ isExec = true)) ∧
    (check_addr printData addrExists isExec = none ↔
      addrExists = true ∧ (printData = true ∨ isExec = true)) := by
  revert printData addrExists isExec
  decide

/-! ## C2 — the lazy disassembly cache

The claim states that a cache-missing `decode_at` inserts every produced
instruction into the cache.  The source consumes the first produced
instruction (`first = next(gen)`) before the caching loop, so the first
instruction — the one at the requested address — is never cached. -/

/-- C2 counterexample: a cache-missing call on an empty cache whose decode
pass produces exactly one instruction (at the requested address, so no
early stop is possible) returns that instruction but leaves the cache
without any entry for it. -/
theorem C2_counterexample :
    (lazy_disasm envSeq [] 0 (-1)).1 = some (Instr.mk 0 1 .iother .indirect) ∧
      alookup (lazy_disasm envSeq [] 0 (-1)).2.1 0 = none := by
  decide

/-- C2 amended: a cache-missing `decode_at` inserts every instruction
produced by the decode pass *except the first* into the cache keyed by its
own address (stopping early when a produced address is already cached); the
first is returned but not cached, so a repeated call at the same address
decodes again — returning an instruction with identical address and size —
while an address already in the cache is answered from the cache with no
stream read. -/
theorem C2_cache_amended (env : DisasmEnv) (code : Cache) (addr : Nat)
    (stay : Int) (sec : Sect) (first : Instr) (rest : List Instr)
    (hm : env.secMeta addr = some sec)
    (hs : ¬(stay ≠ -1 ∧ (sec.start : Int) ≠ stay)) :
    (∀ i, alookup code addr = some i →
      lazy_disasm env code addr stay = (some i, code, [])) ∧
    (alookup code addr = none →
      env.disasm (env.stream addr 1024) addr = first :: rest →
      (∀ i ∈ rest, alookup code i.address = none) →
      (rest.map Instr.address).Nodup →
      addr ∉ rest.map Instr.address →
      lazy_disasm env code addr stay = (some first, insertRest code rest, [(addr, 1024)]) ∧
      (∀ i ∈ rest, alookup (insertRest code rest) i.address = some i) ∧
      alookup (insertRest code rest) addr = none ∧
      (lazy_disasm env (insertRest code rest) addr stay).1 = some first) := by
  constructor
  · intro i hi
    rw [lazy_disasm, hm]
    simp [hs, hi]
  · intro hmiss hdec hfresh hnd hnaddr
    have hrun : lazy_disasm env code addr stay =
        (some first, insertRest code rest, [(addr, 1024)]) := by
      rw [lazy_disasm, hm]
      simp [hs, hmiss, hdec]
    refine ⟨hrun, insertRest_mem code rest hfresh hnd, ?_, ?_⟩
    · rw [insertRest_other code rest addr hnaddr]
      exact hmiss
    · rw [lazy_disasm, hm]
      have hmiss2 : alookup (insertRest code rest) addr = none := by
        rw [insertRest_other code rest addr hnaddr]
        exact hmiss
      simp [hs, hmiss2, hdec]

/-- C2 amended, witnessed on a decoder producing two instructions: the
second is cached, the first is returned, absent from the cache, and
returned again by a repeated call. -/
theorem C2_cache_amended_witness :
    lazy_disasm envTwo [] 0 (-1) =
      (some (Instr.mk 0 1 .iother .indirect),
        [(1, Instr.mk 1 1 .iother .indirect)], [(0, 1024)]) ∧
    (∀ i ∈ [Instr.mk 1 1 .iother .indirect],
      alookup [(1, Instr.mk 1 1 .iother .indirect)] i.address = some i) ∧
    alookup [(1, Instr.mk 1 1 .iother .indirect)] 0 = none ∧
    (lazy_disasm envTwo [(1, Instr.mk 1 1 .iother .indirect)] 0 (-1)).1 =
      some (Instr.mk 0 1 .iother .indirect) := by
  have h := (C2_cache_amended envTwo [] 0 (-1) (Sect.mk "" 0 100)
    (Instr.mk 0 1 .iother .indirect) [Instr.mk 1 1 .iother .indirect]
    rfl (by decide)).2 rfl rfl (by decide) (by decide) (by decide)
  exact h

/-! ## C5 — symbol table bijection

The claim states the symbol maps stay exact inverses under any sequence of
registrations, including registering a new name at an address that already
carries a different name.  `add_symbol` only handles the name-collision
direction (`if name in self.binary.symbols`), so an address-collision
leaves the old name dangling in `symbols` while `reverse_symbols` points to
the new name. -/

/-- C5 counterexample: starting from inverse (empty) maps, registering
`"f"` at 10 and then a different name `"g"` at the same address 10 breaks
the inverse property: `symbols` still maps `"f"` to 10 while
`reverse_symbols` maps 10 to `"g"`. -/
theorem C5_counterexample :
    SymInverse (SymState.mk [] []) ∧
      ¬ SymInverse (add_symbol (add_symbol (SymState.mk [] []) 10 "f") 10 "g") := by
  constructor
  · intro n a
    simp [alookup]
  · intro h
    exact absurd ((h "f" 10).mp (by decide)) (by decide)

/-- C5 amended: registering at a name already bound to a different address
removes the old reverse binding before installing the new one, and the two
maps remain exact inverses — provided the target address is not already
bound to a *different* name (the address-collision case is not handled by
the code and breaks the bijection, as the counterexample shows).  The
key-uniqueness hypothesis is the python-dict well-formedness of the
embedding. -/
theorem C5_add_symbol_amended (s : SymState) (addr : Nat) (name : String)
    (hInv : SymInverse s)
    (hnd : (s.reverse_symbols.map Prod.fst).Nodup)
    (hfree : alookup s.reverse_symbols addr = none ∨
      alookup s.reverse_symbols addr = some name) :
    SymInverse (add_symbol s addr name) := by
  cases hname : alookup s.symbols name with
  | none =>
    intro n a
    rw [add_symbol, hname]
    by_cases hn : n = name
    · subst hn
      by_cases ha : a = addr
      · subst ha
        simp [alookup_aset_self]
      · rw [alookup_aset_self, alookup_aset_other _ _ _ _ ha]
        constructor
        · intro he
          injection he with he
          exact absurd he.symm ha
        · intro he
          have := (hInv n a).mpr he
          rw [hname] at this
          exact Option.noConfusion this
    · rw [alookup_aset_other _ _ _ _ hn]
      by_cases ha : a = addr
      · subst ha
        rw [alookup_aset_self]
        constructor
        · intro he
          have hr := (hInv n a).mp he
          rcases hfree with hf | hf
          · rw [hf] at hr
            exact Option.noConfusion hr
          · rw [hf] at hr
            injection hr with hr
            exact absurd hr.symm hn
        · intro he
          injection he with he
          exact absurd he.symm hn
      · rw [alookup_aset_other _ _ _ _ ha]
        exact hInv n a
  | some last =>
    have hrlast : alookup s.reverse_symbols last = some name := (hInv name last).mp hname
    by_cases haddr : addr = last
    · subst haddr
      intro n a
      rw [add_symbol, hname]
      by_cases hn : n = name
      · subst hn
        by_cases ha : a = addr
        · subst ha
          simp [alookup_aset_self]
        · rw [alookup_aset_self, alookup_aset_other _ _ _ _ ha,
            alookup_adel_other _ _ _ ha]
          constructor
          · intro he
            injection he with he
            exact absurd he.symm ha
          · intro he
            have := (hInv n a).mpr he
            rw [hname] at this
            injection this with this
            exact absurd this.symm ha
      · rw [alookup_aset_other _ _ _ _ hn]
        by_cases ha : a = addr
        · subst ha
          rw [alookup_aset_self]
          constructor
          · intro he
            have hr := (hInv n a).mp he
            rw [hrlast] at hr
            injection hr with hr
            exact absurd hr.symm hn
          · intro he
            injection he with he
            exact absurd he.symm hn
        · rw [alookup_aset_other _ _ _ _ ha, alookup_adel_other _ _ _ ha]
          exact hInv n a
    · have hRaddr : alookup s.reverse_symbols addr = none := by
        rcases hfree with hf | hf
        · exact hf
        · exfalso
          have := (hInv name addr).mpr hf
          rw [hname] at this
          injection this with this
          exact haddr this.symm
      intro n a
      rw [add_symbol, hname]
      by_cases hn : n = name
      · subst hn
        by_cases ha : a = addr
        · subst ha
          simp [alookup_aset_self]
        · rw [alookup_aset_self, alookup_aset_other _ _ _ _ ha]
          constructor
          · intro he
            injection he with he
            exact absurd he.symm ha
          · intro he
            by_cases hal : a = last
            · subst hal
              rw [alookup_adel_self _ _ hnd] at he
              exact Option.noConfusion he
            · rw [alookup_adel_other _ _ _ hal] at he
              have := (hInv n a).mpr he
              rw [hname] at this
              injection this with this
              exact (hal this.symm).elim
      · rw [alookup_aset_other _ _ _ _ hn]
        by_cases ha : a = addr
        · subst ha
          rw [alookup_aset_self]
          constructor
          · intro he
            have hr := (hInv n a).mp he
            rw [hRaddr] at hr
            exact Option.noConfusion hr
          · intro he
            injection he with he
            exact absurd he.symm hn
        · rw [alookup_aset_other _ _ _ _ ha]
          by_cases hal : a = last
          · subst hal
            rw [alookup_adel_self _ _ hnd]
            constructor
            · intro he
              have hr := (hInv n a).mp he
              rw [hrlast] at hr
              injection hr with hr
              exact absurd hr.symm hn
            · intro he
              exact Option.noConfusion he
          · rw [alookup_adel_other _ _ _ hal]
            exact hInv n a

/-- C5 amended, witnessed: registering a name at a fresh address preserves
the inverse property. -/
theorem C5_add_symbol_amended_witness :
    SymInverse (add_symbol (SymState.mk [] []) 1 "x") :=
  C5_add_symbol_amended (SymState.mk [] []) 1 "x"
    (fun n a => by simp [alookup]) (by simp) (Or.inl rfl)

/-! ## C6 — jump-table case annotations -/

theorem initCases_fold_lookup (t : List Nat) (m : List (Nat × List Nat)) (x : Nat) :
    alookup (t.foldl (fun m2 ad => aset m2 ad []) m) x =
      if x ∈ t then some [] else alookup m x := by
  induction t generalizing m with
  | nil => simp
  | cons a r ih =>
    rw [List.foldl_cons, ih]
    by_cases hx : x ∈ r
    · simp [hx]
    · by_cases hxa : x = a
      · subst hxa
        simp [hx, alookup_aset_self]
      · simp [hx, hxa, alookup_aset_other _ _ _ _ hxa]

theorem fillCases_lookup (l : List Nat) (c : Nat) (m : List (Nat × List Nat))
    (x : Nat) (v : List Nat) (h : alookup m x = some v) :
    alookup (fillCases m l c) x = some (v ++ idxs x l c) := by
  induction l generalizing c m v with
  | nil => simpa [fillCases, idxs] using h
  | cons a r ih =>
    rw [fillCases]
    by_cases hxa : a = x
    · subst hxa
      rw [idxs, if_pos rfl]
      have h2 : alookup (aset m a ((alookup m a).getD [] ++ [c])) a = some (v ++ [c]) := by
        rw [h]
        simpa using alookup_aset_self m a (v ++ [c])
      rw [ih (c + 1) _ _ h2]
      simp
    · rw [idxs, if_neg hxa]
      refine ih (c + 1) _ _ ?_
      rw [alookup_aset_other _ _ _ _ (Ne.symm hxa)]
      exact h

theorem idxs_mem (l : List Nat) (c i x : Nat) :
    i ∈ idxs x l c ↔ ∃ j, i = c + j ∧ l.get? j = some x := by
  induction l generalizing c with
  | nil => simp [idxs]
  | cons a r ih =>
    rw [idxs]
    by_cases hax : a = x
    · subst hax
      rw [if_pos rfl]
      constructor
      · intro hi
        rcases List.mem_cons.mp hi with he | hr
        · exact ⟨0, by omega, rfl⟩
        · rcases (ih (c + 1)).mp hr with ⟨j, hj1, hj2⟩
          exact ⟨j + 1, by omega, by simpa using hj2⟩
      · rintro ⟨j, hj1, hj2⟩
        cases j with
        | zero =>
          have : i = c := by omega
          subst this
          exact List.mem_cons_self _ _
        | succ j2 =>
          refine List.mem_cons_of_mem _ ((ih (c + 1)).mpr ⟨j2, by omega, ?_⟩)
          simpa using hj2
    · rw [if_neg hax, ih (c + 1)]
      constructor
      · rintro ⟨j, hj1, hj2⟩
        exact ⟨j + 1, by omega, by simpa using hj2⟩
      · rintro ⟨j, hj1, hj2⟩
        cases j with
        | zero =>
          rw [List.get?_cons_zero] at hj2
          injection hj2 with hj2
          exact absurd hj2 hax
        | succ j2 => exact ⟨j2, by omega, by simpa using hj2⟩

theorem sumLens_aset_none (m : List (Nat × List Nat)) (k : Nat) (v : List Nat)
    (h : alookup m k = none) : sumLens (aset m k v) = sumLens m + v.length := by
  induction m with
  | nil => simp [aset, sumLens]
  | cons p r ih =>
    obtain ⟨a, b⟩ := p
    by_cases ha : a = k
    · rw [alookup, if_pos ha] at h
      exact Option.noConfusion h
    · rw [alookup, if_neg ha] at h
      simp only [aset, if_neg ha, sumLens, List.map_cons, List.sum_cons]
      have := ih h
      simp only [sumLens] at this
      omega

theorem sumLens_aset_append (m : List (Nat × List Nat)) (k : Nat) (w : List Nat)
    (c : Nat) (h : alookup m k = some w) :
    sumLens (aset m k (w ++ [c])) = sumLens m + 1 := by
  induction m with
  | nil => simp [alookup] at h
  | cons p r ih =>
    obtain ⟨a, b⟩ := p
    by_cases ha : a = k
    · subst ha
      rw [alookup, if_pos rfl] at h
      injection h with h
      subst h
      simp only [aset, if_pos rfl, if_true, eq_self_iff_true, sumLens,
        List.map_cons, List.sum_cons, List.length_append, List.length_singleton]
      omega
    · rw [alookup, if_neg ha] at h
      simp only [aset, if_neg ha, sumLens, List.map_cons, List.sum_cons]
      have := ih h
      simp only [sumLens] at this
      omega

theorem fillCases_sum (l : List Nat) (c : Nat) (m : List (Nat × List Nat)) :
    sumLens (fillCases m l c) = sumLens m + l.length := by
  induction l generalizing c m with
  | nil => simp [fillCases]
  | cons a r ih =>
    rw [fillCases, ih]
    cases h : alookup m a with
    | none =>
      simp only [Option.getD_none, List.nil_append]
      rw [sumLens_aset_none m a [c] h]
      simp only [List.length_singleton, List.length_cons, List.length_nil]
      omega
    | some w =>
      simp only [Option.getD_some]
      rw [sumLens_aset_append m a w c h]
      simp only [List.length_cons]
      omega

theorem mem_aset {α β : Type} [DecidableEq α] (m : List (α × β)) (k : α) (v : β)
    (p : α × β) (h : p ∈ aset m k v) : p = (k, v) ∨ p ∈ m := by
  induction m with
  | nil => simpa [aset] using h
  | cons q r ih =>
    obtain ⟨a, b⟩ := q
    by_cases ha : a = k
    · subst ha
      rw [aset, if_pos rfl] at h
      rcases List.mem_cons.mp h with he | hr
      · exact Or.inl he
      · exact Or.inr (List.mem_cons_of_mem _ hr)
    · rw [aset, if_neg ha] at h
      rcases List.mem_cons.mp h with he | hr
      · exact Or.inr (he ▸ List.mem_cons_self _ _)
      · rcases ih hr with h1 | h2
        · exact Or.inl h1
        · exact Or.inr (List.mem_cons_of_mem _ h2)

theorem initCases_fold_allNil (t : List Nat) (m : List (Nat × List Nat))
    (hm : ∀ p ∈ m, p.2 = ([] : List Nat)) :
    ∀ p ∈ t.foldl (fun m2 ad => aset m2 ad []) m, p.2 = ([] : List Nat) := by
  induction t generalizing m with
  | nil => simpa using hm
  | cons a r ih =>
    rw [List.foldl_cons]
    refine ih _ ?_
    intro p hp
    rcases mem_aset _ _ _ _ hp with he | h2
    · rw [he]
    · exact hm p h2

theorem sumLens_allNil (m : List (Nat × List Nat))
    (h : ∀ p ∈ m, p.2 = ([] : List Nat)) : sumLens m = 0 := by
  induction m with
  | nil => simp [sumLens]
  | cons p r ih =>
    have hp := h p (List.mem_cons_self p r)
    simp only [sumLens, List.map_cons, List.sum_cons, hp, List.length_nil]
    have := ih (fun q hq => h q (List.mem_cons_of_mem p hq))
    simpa [sumLens] using this

theorem initCases_sum (t : List Nat) : sumLens (initCases t) = 0 :=
  sumLens_allNil _ (initCases_fold_allNil t [] (by simp))

/-- C6: after `add_jmptable` reads a table, every destination address
occurring in it has a case-annotation list, that list is nonempty and
holds exactly the table-entry indices (case numbers counted from 0) whose
entry equals the destination, and the total number of case annotations
equals the number of entries actually read. -/
theorem C6_jmptable_cases (table : List Nat) :
    (∀ ad, ad ∈ table →
      ∃ l, alookup (allCases table) ad = some l ∧ l ≠ [] ∧
        ∀ i, (i ∈ l ↔ table.get? i = some ad)) ∧
    sumLens (allCases table) = table.length := by
  constructor
  · intro ad had
    have h0 : alookup (initCases table) ad = some [] := by
      have := initCases_fold_lookup table [] ad
      rw [initCases]
      rw [this, if_pos had]
    have h1 := fillCases_lookup table 0 _ ad [] h0
    refine ⟨idxs ad table 0, by simpa [allCases] using h1, ?_, ?_⟩
    · rcases List.mem_iff_get?.mp had with ⟨j, hj⟩
      exact List.ne_nil_of_mem ((idxs_mem table 0 j ad).mpr ⟨j, by omega, hj⟩)
    · intro i
      rw [idxs_mem]
      constructor
      · rintro ⟨j, hj1, hj2⟩
        have he : i = j := by omega
        exact he ▸ hj2
      · intro hg
        exact ⟨i, by omega, hg⟩
  · rw [allCases, fillCases_sum, initCases_sum]
    omega

/-- C6 witnessed on the spec's example table `{A, B, A, C}`: destination
`A = 10` gets exactly the case list `[0, 2]`. -/
theorem C6_jmptable_cases_witness :
    ∃ l, alookup (allCases [10, 20, 10, 30]) 10 = some l ∧ l ≠ [] ∧
      ∀ i, (i ∈ l ↔ [10, 20, 10, 30].get? i = some 10) :=
  (C6_jmptable_cases [10, 20, 10, 30]).1 10 (by decide)

/-! ## C7 — no-graph result policy -/

theorem finishCfg_some (s : CfgState) (g : Graph) (h : finishCfg s = some g) :
    g.nodes ≠ [] := by
  rw [finishCfg] at h
  split at h
  · exact Option.noConfusion h
  · next hne =>
    injection h with h
    exact h ▸ hne

/-- C7: `get_graph` never returns an empty graph object — a completed run
that yields a graph yields one with a nonempty node set — and when the
entry address decodes to no valid instruction the run completes
immediately with the distinguished no-graph result `none`. -/
theorem C7_no_graph (env : DisasmEnv) (jt : List (Nat × List Nat)) (code : Cache)
    (entry : Nat) :
    (∀ fuel s g, cfgRun env jt fuel s = .done (some g) → g.nodes ≠ []) ∧
    ((lazy_disasm env code entry (-1)).1 = none →
      ∀ n, get_graph env jt code (n + 1) entry = .done none) := by
  constructor
  · intro fuel
    induction fuel with
    | zero =>
      intro s g h
      rw [cfgRun] at h
      split at h
      · injection h with h
        exact finishCfg_some s g h
      · exact CfgOut.noConfusion h
    | succ n ih =>
      intro s g h
      rw [cfgRun] at h
      split at h
      · injection h with h
        exact finishCfg_some s g h
      · split at h
        · exact CfgOut.noConfusion h
        · exact ih _ g h
  · intro hlz n
    rcases hl : lazy_disasm env code entry (-1) with ⟨r, c1, lg⟩
    rw [hl] at hlz
    simp only at hlz
    subst hlz
    rw [get_graph, cfgRun]
    simp only [processOne, hl]
    have hret : Graph.empty.retract entry = Graph.empty := by
      rw [Graph.retract]
      simp [Graph.empty, alookup]
    rw [hret]
    cases n with
    | zero => simp [cfgRun, finishCfg, Graph.empty]
    | succ k => simp [cfgRun, finishCfg, Graph.empty]

theorem C7_no_graph_witness :
    get_graph envNone [] [] 1 0 = .done none :=
  (C7_no_graph envNone [] [] 0).2 rfl 0

/-! ## Lemmas about the modelled graph operations -/

theorem listInsert_mem_iff (l : List Nat) (x y : Nat) :
    x ∈ listInsert l y ↔ x = y ∨ x ∈ l := by
  rw [listInsert]
  split
  · next hy =>
    constructor
    · exact Or.inr
    · rintro (rfl | h)
      · exact hy
      · exact h
  · simp [List.mem_append, or_comm]

theorem addEdge_nodes (g : Graph) (a b : Nat) : (g.addEdge a b).nodes = g.nodes := rfl

theorem addEdge_out_self (g : Graph) (a b : Nat) :
    alookup (g.addEdge a b).link_out a =
      some (listInsert ((alookup g.link_out a).getD []) b) :=
  alookup_aset_self _ _ _

theorem addEdge_out_other (g : Graph) (a b p : Nat) (h : p ≠ a) :
    alookup (g.addEdge a b).link_out p = alookup g.link_out p :=
  alookup_aset_other _ _ _ _ h

theorem addEdge_in_self (g : Graph) (a b : Nat) :
    a ∈ (alookup (g.addEdge a b).link_in b).getD [] := by
  show a ∈ (alookup (mapInsert g.link_in b a) b).getD []
  rw [mapInsert, alookup_aset_self]
  exact (listInsert_mem_iff _ a a).mpr (Or.inl rfl)

theorem addEdge_in_mono (g : Graph) (a b t x : Nat)
    (h : x ∈ (alookup g.link_in t).getD []) :
    x ∈ (alookup (g.addEdge a b).link_in t).getD [] := by
  show x ∈ (alookup (mapInsert g.link_in b a) t).getD []
  rw [mapInsert]
  by_cases ht : t = b
  · subst ht
    rw [alookup_aset_self]
    exact (listInsert_mem_iff _ x a).mpr (Or.inr h)
  · rw [alookup_aset_other _ _ _ _ ht]
    exact h

theorem foldJmp_nodes (table : List Nat) (a : Nat) (g0 : Graph) :
    (table.foldl (fun g2 t => g2.addEdge a t) g0).nodes = g0.nodes := by
  induction table generalizing g0 with
  | nil => rfl
  | cons b r ih => rw [List.foldl_cons, ih, addEdge_nodes]

theorem foldJmp_out (table : List Nat) (a : Nat) (g0 : Graph) (t : Nat) :
    t ∈ (alookup (table.foldl (fun g2 t2 => g2.addEdge a t2) g0).link_out a).getD [] ↔
      t ∈ table ∨ t ∈ (alookup g0.link_out a).getD [] := by
  induction table generalizing g0 with
  | nil => simp
  | cons b r ih =>
    rw [List.foldl_cons, ih]
    rw [addEdge_out_self]
    simp only [Option.getD_some]
    rw [listInsert_mem_iff]
    simp only [List.mem_cons]
    tauto

theorem foldJmp_in_mono (table : List Nat) (a : Nat) (g0 : Graph) (t x : Nat)
    (h : x ∈ (alookup g0.link_in t).getD []) :
    x ∈ (alookup (table.foldl (fun g2 t2 => g2.addEdge a t2) g0).link_in t).getD [] := by
  induction table generalizing g0 with
  | nil => exact h
  | cons b r ih =>
    rw [List.foldl_cons]
    exact ih _ (addEdge_in_mono g0 a b t x h)

theorem foldJmp_in_mem (table : List Nat) (a : Nat) (g0 : Graph) :
    ∀ t ∈ table,
      a ∈ (alookup (table.foldl (fun g2 t2 => g2.addEdge a t2) g0).link_in t).getD [] := by
  induction table generalizing g0 with
  | nil => intro t ht; exact absurd ht (List.not_mem_nil t)
  | cons b r ih =>
    intro t ht
    rw [List.foldl_cons]
    rcases List.mem_cons.mp ht with he | hr
    · subst he
      exact foldJmp_in_mono r a _ t a (addEdge_in_self g0 a t)
    · exact ih _ t hr

/-! ## C3 — indirect unconditional jumps -/

/-- C3: when `get_graph` pops an address decoding to an unconditional jump
whose target operand is indirect: if the instruction address is registered
in the jump-table registry, the node is added, every table entry is pushed
onto the worklist and the node's successors (in both adjacency mappings)
are exactly the table entries; if it is not registered, the node is added
with no successor edges and nothing is pushed. -/
theorem C3_uncond_indirect (env : DisasmEnv) (jt : List (Nat × List Nat))
    (s : CfgState) (ad : Nat) (rest : List Nat) (inst : Instr) (code1 : Cache)
    (lg : List (Nat × Nat))
    (hlz : lazy_disasm env s.code ad (-1) = (some inst, code1, lg))
    (hnew : inst.address ∉ s.gph.nodes)
    (htag : inst.tag = .ujump)
    (hop : inst.lastOp = .indirect)
    (hout : alookup s.gph.link_out inst.address = none) :
    (∀ table, alookup jt inst.address = some table →
      ∃ s2, processOne env jt s ad rest = some s2 ∧
        s2.stack = table.reverse ++ rest ∧
        inst.address ∈ s2.gph.nodes ∧
        (∀ t, t ∈ (alookup s2.gph.link_out inst.address).getD [] ↔ t ∈ table) ∧
        (∀ t ∈ table, inst.address ∈ (alookup s2.gph.link_in t).getD [])) ∧
    (alookup jt inst.address = none →
      ∃ s2, processOne env jt s ad rest = some s2 ∧
        s2.stack = rest ∧
        inst.address ∈ s2.gph.nodes ∧
        alookup s2.gph.link_out inst.address = none) := by
  constructor
  · intro table hjt
    have hrun : processOne env jt s ad rest =
        some (CfgState.mk ((s.gph.addUncond ad).setJmptableNext inst table)
          (table.reverse ++ rest)
          (if env.arch = .mips then
            (lazy_disasm env code1 (inst.address + inst.size) (-1)).2.1
          else code1)) := by
      rw [processOne, hlz]
      simp [hnew, htag, hop, hjt]
    refine ⟨_, hrun, rfl, ?_, ?_, ?_⟩
    · show inst.address ∈ ((s.gph.addUncond ad).setJmptableNext inst table).nodes
      rw [Graph.setJmptableNext, foldJmp_nodes]
      exact (listInsert_mem_iff _ _ _).mpr (Or.inl rfl)
    · intro t
      show t ∈ (alookup ((s.gph.addUncond ad).setJmptableNext inst table).link_out
        inst.address).getD [] ↔ t ∈ table
      rw [Graph.setJmptableNext, foldJmp_out]
      have : alookup ((s.gph.addUncond ad).addNode inst.address).link_out inst.address =
          none := hout
      rw [this]
      simp
    · intro t ht
      show inst.address ∈
        (alookup ((s.gph.addUncond ad).setJmptableNext inst table).link_in t).getD []
      rw [Graph.setJmptableNext]
      exact foldJmp_in_mem table inst.address _ t ht
  · intro hjt
    have hrun : processOne env jt s ad rest =
        some (CfgState.mk ((s.gph.addUncond ad).addNode inst.address) rest
          (if env.arch = .mips then
            (lazy_disasm env code1 (inst.address + inst.size) (-1)).2.1
          else code1)) := by
      rw [processOne, hlz]
      simp [hnew, htag, hop, hjt]
    refine ⟨_, hrun, rfl, ?_, ?_⟩
    · exact (listInsert_mem_iff _ _ _).mpr (Or.inl rfl)
    · exact hout

/-- C3 witnessed on an indirect jump at 0 registered with table
`[10, 20, 10]`. -/
theorem C3_uncond_indirect_witness :
    ∃ s2, processOne envUJ [(0, [10, 20, 10])] (CfgState.mk Graph.empty [0] []) 0 [] =
        some s2 ∧
      s2.stack = [10, 20, 10].reverse ++ [] ∧
      (0 : Nat) ∈ s2.gph.nodes ∧
      (∀ t, t ∈ (alookup s2.gph.link_out 0).getD [] ↔ t ∈ [10, 20, 10]) ∧
      (∀ t ∈ [10, 20, 10], (0 : Nat) ∈ (alookup s2.gph.link_in t).getD []) :=
  (C3_uncond_indirect envUJ [(0, [10, 20, 10])] (CfgState.mk Graph.empty [0] []) 0 []
    (Instr.mk 0 2 .ujump .indirect) [] [(0, 1024)] (by decide) (by decide) rfl rfl rfl).1
    [10, 20, 10] rfl

/-! ## Key-uniqueness bookkeeping for association lists -/

theorem mem_keys_aset {α β : Type} [DecidableEq α] (m : List (α × β)) (k : α) (v : β)
    (x : α) (h : x ∈ (aset m k v).map Prod.fst) : x ∈ m.map Prod.fst ∨ x = k := by
  induction m with
  | nil => simpa [aset] using h
  | cons p r ih =>
    obtain ⟨a, b⟩ := p
    by_cases ha : a = k
    · subst ha
      rw [aset, if_pos rfl] at h
      simpa using Or.inl (by simpa using h)
    · rw [aset, if_neg ha] at h
      simp only [List.map_cons, List.mem_cons] at h ⊢
      rcases h with he | h2
      · exact Or.inl (Or.inl he)
      · rcases ih h2 with h3 | h3
        · exact Or.inl (Or.inr h3)
        · exact Or.inr h3

theorem aset_keys_nodup {α β : Type} [DecidableEq α] (m : List (α × β)) (k : α) (v : β)
    (h : (m.map Prod.fst).Nodup) : ((aset m k v).map Prod.fst).Nodup := by
  induction m with
  | nil => simp [aset]
  | cons p r ih =>
    obtain ⟨a, b⟩ := p
    simp only [List.map_cons, List.nodup_cons] at h
    by_cases ha : a = k
    · subst ha
      rw [aset, if_pos rfl]
      simp only [List.map_cons, List.nodup_cons]
      exact ⟨h.1, h.2⟩
    · rw [aset, if_neg ha]
      simp only [List.map_cons, List.nodup_cons]
      refine ⟨?_, ih h.2⟩
      intro hmem
      rcases mem_keys_aset r k v a hmem with h2 | h2
      · exact h.1 h2
      · exact ha h2

theorem mem_keys_adel {α β : Type} [DecidableEq α] (m : List (α × β)) (k x : α)
    (h : x ∈ (adel m k).map Prod.fst) : x ∈ m.map Prod.fst := by
  induction m with
  | nil => simp [adel] at h
  | cons p r ih =>
    obtain ⟨a, b⟩ := p
    by_cases ha : a = k
    · rw [adel, if_pos ha] at h
      exact List.mem_cons_of_mem _ h
    · rw [adel, if_neg ha] at h
      simp only [List.map_cons, List.mem_cons] at h ⊢
      rcases h with he | h2
      · exact Or.inl he
      · exact Or.inr (ih h2)

theorem adel_keys_nodup {α β : Type} [DecidableEq α] (m : List (α × β)) (k : α)
    (h : (m.map Prod.fst).Nodup) : ((adel m k).map Prod.fst).Nodup := by
  induction m with
  | nil => simp [adel]
  | cons p r ih =>
    obtain ⟨a, b⟩ := p
    simp only [List.map_cons, List.nodup_cons] at h
    by_cases ha : a = k
    · rw [adel, if_pos ha]
      exact h.2
    · rw [adel, if_neg ha]
      simp only [List.map_cons, List.nodup_cons]
      exact ⟨fun hm => h.1 (mem_keys_adel r k a hm), ih h.2⟩

/-! ## C1 — retraction of edges to an undecodable address -/

theorem retract_fold1_lookup (preds : List Nat) (lo0 : List (Nat × List Nat))
    (ad x : Nat) (hnd : preds.Nodup) :
    alookup (preds.foldl (fun lo i => aset lo i (((alookup lo i).getD []).erase ad)) lo0) x =
      if x ∈ preds then some (((alookup lo0 x).getD []).erase ad)
      else alookup lo0 x := by
  induction preds generalizing lo0 with
  | nil => simp
  | cons p r ih =>
    simp only [List.nodup_cons] at hnd
    rw [List.foldl_cons, ih _ hnd.2]
    by_cases hx : x ∈ r
    · rw [if_pos hx, if_pos (List.mem_cons_of_mem p hx)]
      have hxp : x ≠ p := fun he => hnd.1 (he ▸ hx)
      rw [alookup_aset_other _ _ _ _ hxp]
    · rw [if_neg hx]
      by_cases hxp : x = p
      · subst hxp
        rw [if_pos (List.mem_cons_self x r), alookup_aset_self]
      · rw [alookup_aset_other _ _ _ _ hxp,
          if_neg (by simp [List.mem_cons, hxp, hx])]

theorem retract_fold1_keys (preds : List Nat) (lo0 : List (Nat × List Nat)) (ad : Nat)
    (h : (lo0.map Prod.fst).Nodup) :
    ((preds.foldl (fun lo i => aset lo i (((alookup lo i).getD []).erase ad))
      lo0).map Prod.fst).Nodup := by
  induction preds generalizing lo0 with
  | nil => exact h
  | cons p r ih =>
    rw [List.foldl_cons]
    exact ih _ (aset_keys_nodup _ _ _ h)

theorem retract_fold2_lookup (preds : List Nat) (lo : List (Nat × List Nat)) (x : Nat)
    (hnd : preds.Nodup) (hknd : (lo.map Prod.fst).Nodup) :
    alookup (preds.foldl
        (fun lo2 i => if (alookup lo2 i).getD [] = [] then adel lo2 i else lo2) lo) x =
      if x ∈ preds ∧ (alookup lo x).getD [] = [] then none else alookup lo x := by
  induction preds generalizing lo with
  | nil => simp
  | cons p r ih =>
    simp only [List.nodup_cons] at hnd
    rw [List.foldl_cons]
    by_cases hp : (alookup lo p).getD [] = []
    · rw [if_pos hp, ih _ hnd.2 (adel_keys_nodup _ _ hknd)]
      by_cases hxp : x = p
      · subst hxp
        rw [alookup_adel_self _ _ hknd]
        by_cases hxr : x ∈ r
        · rw [if_pos ⟨hxr, by simp⟩, if_pos ⟨List.mem_cons_self x r, hp⟩]
        · rw [if_neg (by simp [hxr]), if_pos ⟨List.mem_cons_self x r, hp⟩]
      · rw [alookup_adel_other _ _ _ hxp]
        by_cases hxr : x ∈ r <;> by_cases hg : (alookup lo x).getD [] = [] <;>
          simp [hxr, hg, hxp, List.mem_cons]
    · rw [if_neg hp, ih _ hnd.2 hknd]
      by_cases hxp : x = p
      · subst hxp
        simp [hp]
      · simp [List.mem_cons, hxp]

theorem retract_out_lookup (g : Graph) (ad x : Nat) (preds : List Nat)
    (hin : alookup g.link_in ad = some preds)
    (hpnd : preds.Nodup) (hknd : (g.link_out.map Prod.fst).Nodup) :
    alookup (g.retract ad).link_out x =
      if x ∈ preds then
        (if ((alookup g.link_out x).getD []).erase ad = [] then none
         else some (((alookup g.link_out x).getD []).erase ad))
      else alookup g.link_out x := by
  rw [Graph.retract, hin]
  simp only
  rw [retract_fold2_lookup _ _ _ hpnd (retract_fold1_keys _ _ _ hknd),
    retract_fold1_lookup _ _ _ _ hpnd]
  by_cases hx : x ∈ preds
  · simp only [if_pos hx, Option.getD_some]
    by_cases he : ((alookup g.link_out x).getD []).erase ad = []
    · rw [if_pos ⟨hx, he⟩, if_pos he]
    · rw [if_neg (fun hc => he hc.2), if_neg he]
  · rw [if_neg hx, if_neg hx, if_neg (fun hc => hx hc.1)]

/-- C1: retracting a decode-failed address `ad` drops `ad`'s incoming
entry, leaves no edge to `ad` in the outgoing mapping and no emptied
outgoing entry behind, and preserves every edge whose destination is not
`ad` — no dangling half-edge remains in either adjacency mapping. -/
theorem C1_retraction (g : Graph) (ad : Nat) (hInv : GraphInv g) :
    alookup (g.retract ad).link_in ad = none ∧
    (∀ p l, alookup (g.retract ad).link_out p = some l → ad ∉ l ∧ l ≠ []) ∧
    (∀ p t, t ≠ ad →
      (t ∈ (alookup (g.retract ad).link_out p).getD [] ↔
        t ∈ (alookup g.link_out p).getD [])) := by
  obtain ⟨hOut, hOutIn, hInNd, hKOut, hKIn⟩ := hInv
  cases hin : alookup g.link_in ad with
  | none =>
    have hre : g.retract ad = g := by rw [Graph.retract, hin]
    rw [hre]
    refine ⟨hin, ?_, ?_⟩
    · intro p l hl
      have hmem := alookup_mem _ _ _ hl
      refine ⟨?_, (hOut _ hmem).2⟩
      intro had
      have hco := hOutIn _ hmem ad had
      rw [hin] at hco
      simp at hco
    · intro p t ht
      exact Iff.rfl
  | some preds =>
    have hpnd : preds.Nodup := hInNd _ (alookup_mem _ _ _ hin)
    have hchar := fun x => retract_out_lookup g ad x preds hin hpnd hKOut
    have hinret : alookup (g.retract ad).link_in ad = none := by
      rw [Graph.retract, hin]
      simp only
      exact alookup_adel_self _ _ hKIn
    refine ⟨hinret, ?_, ?_⟩
    · intro p l hl
      rw [hchar p] at hl
      by_cases hp : p ∈ preds
      · rw [if_pos hp] at hl
        by_cases he : ((alookup g.link_out p).getD []).erase ad = []
        · rw [if_pos he] at hl
          exact Option.noConfusion hl
        · rw [if_neg he] at hl
          injection hl with hl
          subst hl
          refine ⟨?_, he⟩
          cases hlo : alookup g.link_out p with
          | none =>
            rw [hlo] at he
            simp at he
          | some l0 =>
            have hnd0 := (hOut _ (alookup_mem _ _ _ hlo)).1
            simp only [Option.getD_some]
            intro had
            exact ((List.Nodup.mem_erase_iff hnd0).mp had).1 rfl
      · rw [if_neg hp] at hl
        have hmem := alookup_mem _ _ _ hl
        refine ⟨?_, (hOut _ hmem).2⟩
        intro had
        have hco := hOutIn _ hmem ad had
        rw [hin] at hco
        simp only [Option.getD_some] at hco
        exact hp hco
    · intro p t ht
      rw [hchar p]
      by_cases hp : p ∈ preds
      · rw [if_pos hp]
        cases hlo : alookup g.link_out p with
        | none => simp
        | some l0 =>
          have hnd0 := (hOut _ (alookup_mem _ _ _ hlo)).1
          simp only [Option.getD_some]
          by_cases he : l0.erase ad = []
          · rw [if_pos he]
            simp only [Option.getD_none]
            constructor
            · intro h
              exact absurd h (List.not_mem_nil t)
            · intro h
              have hmem : t ∈ l0.erase ad :=
                (List.Nodup.mem_erase_iff hnd0).mpr ⟨ht, h⟩
              rw [he] at hmem
              exact absurd hmem (List.not_mem_nil t)
          · rw [if_neg he]
            simp only [Option.getD_some]
            rw [List.Nodup.mem_erase_iff hnd0]
            simp [ht]
      · rw [if_neg hp]

/-- C1 witnessed on `graphW`: retracting node 5 removes its incoming entry
while the surviving edge `2 → 3` is untouched. -/
theorem C1_retraction_witness :
    alookup (Graph.retract graphW 5).link_in 5 = none ∧
      (3 ∈ (alookup (Graph.retract graphW 5).link_out 2).getD [] ↔
        3 ∈ (alookup graphW.link_out 2).getD []) := by
  have h := C1_retraction graphW 5 (by unfold GraphInv; decide)
  exact ⟨h.1, h.2.2 2 3 (by decide)⟩

/-! ## C10 — MIPS delay-slot prefetch crash -/

/-- C10: on MIPS, when `get_graph` reaches a conditional jump with an
immediate operand whose delay-slot prefetch (`lazy_disasm` at
`address + size`) fails, the fallthrough computation
`prefetch.address + prefetch.size` dereferences `None`: the iteration
aborts with an exception (the crash outcome) instead of extending the
graph, so the builder is total only when every MIPS conditional jump's
delay slot decodes. -/
theorem C10_mips_prefetch_crash (env : DisasmEnv) (jt : List (Nat × List Nat))
    (g : Graph) (code code1 : Cache) (lg : List (Nat × Nat)) (ad : Nat)
    (inst : Instr) (v : Nat)
    (harch : env.arch = .mips)
    (hlz : lazy_disasm env code ad (-1) = (some inst, code1, lg))
    (hnew : inst.address ∉ g.nodes)
    (htag : inst.tag = .cjump)
    (hop : inst.lastOp = .imm v)
    (hpf : (lazy_disasm env code1 (inst.address + inst.size) (-1)).1 = none) :
    (∀ stk rest, processOne env jt (CfgState.mk g stk code) ad rest = none) ∧
    (∀ n rest, cfgRun env jt (n + 1) (CfgState.mk g (ad :: rest) code) = .crashed) := by
  have hpo : ∀ stk rest, processOne env jt (CfgState.mk g stk code) ad rest = none := by
    intro stk rest
    rw [processOne]
    simp only [hlz]
    simp [hnew, htag, hop, harch, hpf]
  refine ⟨hpo, ?_⟩
  intro n rest
  rw [cfgRun]
  simp [hpo]

/-- C10 witnessed: a MIPS conditional jump at 0 whose delay slot at 4 lies
outside every section crashes the builder. -/
theorem C10_mips_prefetch_crash_witness :
    cfgRun envMips [] 1 (CfgState.mk Graph.empty [0] []) = .crashed :=
  (C10_mips_prefetch_crash envMips [] Graph.empty [] [] [(0, 1024)] 0
    (Instr.mk 0 4 .cjump (.imm 20)) 20 rfl (by decide) (by decide) rfl rfl
    (by decide)).2 0 []

/-! ## C4 — termination of the worklist loop -/

theorem lazy_disasm_cases (env : DisasmEnv) (code : Cache) (a : Nat) (st : Int) :
    (∃ lg, lazy_disasm env code a st = (none, code, lg)) ∨
    (∃ i lg, lazy_disasm env code a st = (some i, code, lg) ∧
      alookup code a = some i) ∨
    (∃ first rest lg,
      lazy_disasm env code a st = (some first, insertRest code rest, lg) ∧
      env.disasm (env.stream a 1024) a = first :: rest) := by
  rw [lazy_disasm]
  split
  · exact Or.inl ⟨[], rfl⟩
  · split
    · exact Or.inl ⟨[], rfl⟩
    · split
      · next i hq => exact Or.inr (Or.inl ⟨i, [], rfl, hq⟩)
      · split
        · exact Or.inl ⟨_, rfl⟩
        · next first rest hd => exact Or.inr (Or.inr ⟨first, rest, _, rfl, hd⟩)

theorem lazy_disasm_bound (env : DisasmEnv) (B : Nat) (code : Cache) (a : Nat)
    (st : Int) (hE : EnvBound env B)
    (hc : ∀ k i, alookup code k = some i → i.address < B) :
    (∀ k i, alookup (lazy_disasm env code a st).2.1 k = some i → i.address < B) ∧
    (∀ inst, (lazy_disasm env code a st).1 = some inst → inst.address < B) := by
  rcases lazy_disasm_cases env code a st with ⟨lg, h⟩ | ⟨i, lg, h, hcc⟩ |
    ⟨f, rest, lg, h, hd⟩ <;> rw [h]
  · exact ⟨hc, fun inst hi => Option.noConfusion hi⟩
  · refine ⟨hc, fun inst hi => ?_⟩
    injection hi with hi
    exact hi ▸ hc _ _ hcc
  · constructor
    · intro k i hk
      rcases insertRest_lookup_source _ _ _ _ hk with hsrc | hmem
      · exact hc _ _ hsrc
      · refine hE (env.stream a 1024) a i ?_
        rw [hd]
        exact List.mem_cons_of_mem f hmem
    · intro inst hi
      injection hi with hi
      refine hi ▸ hE (env.stream a 1024) a f ?_
      rw [hd]
      exact List.mem_cons_self f rest

theorem tabMax_bound (jt : List (Nat × List Nat)) (a : Nat) (table : List Nat)
    (h : alookup jt a = some table) : table.length ≤ tabMax jt := by
  induction jt with
  | nil => simp [alookup] at h
  | cons p r ih =>
    obtain ⟨k, tb⟩ := p
    rw [tabMax, List.foldr_cons]
    by_cases hk : k = a
    · rw [alookup, if_pos hk] at h
      injection h with h
      subst h
      exact le_max_left _ _
    · rw [alookup, if_neg hk] at h
      exact le_trans (ih h) (le_max_right _ _)

theorem nodes_length_le (l : List Nat) (B : Nat) (hnd : l.Nodup)
    (hb : ∀ a ∈ l, a < B) : l.length ≤ B := by
  classical
  have h1 : l.toFinset.card = l.length := List.toFinset_card_of_nodup hnd
  have h2 : l.toFinset ⊆ Finset.range B := by
    intro x hx
    rw [Finset.mem_range]
    exact hb x (List.mem_toFinset.mp hx)
  have h3 := Finset.card_le_card h2
  rw [h1, Finset.card_range] at h3
  exact h3

theorem measure_step (P B nlen slen rlen : Nat)
    (hle : nlen + 1 ≤ B) (hs : slen ≤ rlen + P) :
    slen + P * (B - (nlen + 1)) + 1 ≤ rlen + 1 + P * (B - nlen) := by
  have h : B - nlen = (B - (nlen + 1)) + 1 := by omega
  rw [h, Nat.mul_add, Nat.mul_one]
  generalize P * (B - (nlen + 1)) = Q
  omega

theorem retract_nodes (g : Graph) (ad : Nat) : (g.retract ad).nodes = g.nodes := by
  rw [Graph.retract]
  cases alookup g.link_in ad <;> rfl

theorem wrap_skip (jt : List (Nat × List Nat)) (B : Nat) (s s2 : CfgState)
    (rest : List Nat) (hInv : CfgInv B s)
    (hnodes : s2.gph.nodes = s.gph.nodes)
    (hstk : s2.stack.length ≤ rest.length)
    (hcode : ∀ k i, alookup s2.code k = some i → i.address < B) :
    CfgInv B s2 ∧ cfgMeasure (maxPush jt) B s2 + 1 ≤
      rest.length + 1 + maxPush jt * (B - s.gph.nodes.length) := by
  obtain ⟨hnd, hb, _⟩ := hInv
  refine ⟨⟨hnodes ▸ hnd, hnodes ▸ hb, hcode⟩, ?_⟩
  rw [cfgMeasure, hnodes]
  generalize maxPush jt * (B - s.gph.nodes.length) = Q
  omega

theorem wrap_branch (jt : List (Nat × List Nat)) (B : Nat) (s s2 : CfgState)
    (inst : Instr) (rest : List Nat)
    (hex : inst.address ∉ s.gph.nodes)
    (hbA : inst.address < B)
    (hInv : CfgInv B s)
    (hnodes : s2.gph.nodes = listInsert s.gph.nodes inst.address)
    (hstk : s2.stack.length ≤ rest.length + maxPush jt)
    (hcode : ∀ k i, alookup s2.code k = some i → i.address < B) :
    CfgInv B s2 ∧ cfgMeasure (maxPush jt) B s2 + 1 ≤
      rest.length + 1 + maxPush jt * (B - s.gph.nodes.length) := by
  obtain ⟨hnd, hb, _⟩ := hInv
  have hli : listInsert s.gph.nodes inst.address = s.gph.nodes ++ [inst.address] := by
    rw [listInsert, if_neg hex]
  have hnd2 : s2.gph.nodes.Nodup := by
    rw [hnodes, hli]
    simp [List.nodup_append, hnd, hex]
  have hb2 : ∀ a ∈ s2.gph.nodes, a < B := by
    rw [hnodes, hli]
    intro a ha
    rcases List.mem_append.mp ha with h1 | h1
    · exact hb a h1
    · simp only [List.mem_singleton] at h1
      exact h1 ▸ hbA
  have hlen : s2.gph.nodes.length = s.gph.nodes.length + 1 := by
    rw [hnodes, hli]
    simp
  have hle : s.gph.nodes.length + 1 ≤ B := by
    have := nodes_length_le s2.gph.nodes B hnd2 hb2
    rw [hlen] at this
    exact this
  refine ⟨⟨hnd2, hb2, hcode⟩, ?_⟩
  rw [cfgMeasure, hlen]
  exact measure_step (maxPush jt) B _ _ _ hle hstk

theorem processOne_step (env : DisasmEnv) (jt : List (Nat × List Nat)) (B : Nat)
    (hE : EnvBound env B) (s : CfgState) (ad : Nat) (rest : List Nat) (s2 : CfgState)
    (hInv : CfgInv B s) (hstep : processOne env jt s ad rest = some s2) :
    CfgInv B s2 ∧
      cfgMeasure (maxPush jt) B s2 + 1 ≤
        rest.length + 1 + maxPush jt * (B - s.gph.nodes.length) := by
  have h2P : 2 ≤ maxPush jt := le_max_left _ _
  have hbl0 := lazy_disasm_bound env B s.code ad (-1) hE hInv.2.2
  rcases hlz : lazy_disasm env s.code ad (-1) with ⟨r, code1, lg⟩
  rw [hlz] at hbl0
  rw [processOne, hlz] at hstep
  cases r with
  | none =>
    simp only [Option.some.injEq] at hstep
    subst hstep
    exact wrap_skip jt B s _ rest hInv (retract_nodes _ _) (le_refl _) hbl0.1
  | some inst =>
    dsimp only at hstep
    have hbA : inst.address < B := hbl0.2 inst rfl
    have hbl2 := lazy_disasm_bound env B code1 (inst.address + inst.size) (-1) hE hbl0.1
    have hcode2 : ∀ k i,
        alookup (if env.arch = .mips then
          (lazy_disasm env code1 (inst.address + inst.size) (-1)).2.1
        else code1) k = some i → i.address < B := by
      split
      · exact hbl2.1
      · exact hbl0.1
    by_cases hex : inst.address ∈ s.gph.nodes
    · rw [if_pos hex] at hstep
      simp only [Option.some.injEq] at hstep
      subst hstep
      exact wrap_skip jt B s _ rest hInv rfl (le_refl _) hbl0.1
    · rw [if_neg hex] at hstep
      cases htag : inst.tag <;> simp only [htag] at hstep
      · simp only [Option.some.injEq] at hstep
        subst hstep
        exact wrap_branch jt B s _ inst rest hex hbA hInv rfl
          (Nat.le_add_right _ _) hcode2
      · cases hop : inst.lastOp <;> simp only [hop] at hstep
        · simp only [Option.some.injEq] at hstep
          subst hstep
          refine wrap_branch jt B s _ inst rest hex hbA hInv rfl ?_ hcode2
          simp only [List.length_cons]
          omega
        · cases hjt : alookup jt inst.address <;> simp only [hjt] at hstep
          · simp only [Option.some.injEq] at hstep
            subst hstep
            exact wrap_branch jt B s _ inst rest hex hbA hInv rfl
              (Nat.le_add_right _ _) hcode2
          · rename_i table
            simp only [Option.some.injEq] at hstep
            subst hstep
            refine wrap_branch jt B s _ inst rest hex hbA hInv ?_ ?_ hcode2
            · show ((s.gph.addUncond ad).setJmptableNext inst table).nodes = _
              rw [Graph.setJmptableNext, foldJmp_nodes]
              rfl
            · show (table.reverse ++ rest).length ≤ rest.length + maxPush jt
              rw [List.length_append, List.length_reverse]
              have hb := tabMax_bound jt inst.address table hjt
              have hm := le_max_right 2 (tabMax jt)
              rw [maxPush] at *
              omega
      · cases hop : inst.lastOp <;> simp only [hop] at hstep
        · by_cases harch : env.arch = .mips
          · rw [if_pos harch] at hstep
            cases hpf : (lazy_disasm env code1 (inst.address + inst.size) (-1)).1 <;>
              rw [hpf] at hstep
            · exact Option.noConfusion hstep
            · simp only [Option.some.injEq] at hstep
              subst hstep
              refine wrap_branch jt B s _ inst rest hex hbA hInv rfl ?_ hbl2.1
              simp only [List.length_cons]
              omega
          · rw [if_neg harch] at hstep
            simp only [Option.some.injEq] at hstep
            subst hstep
            refine wrap_branch jt B s _ inst rest hex hbA hInv rfl ?_ hbl0.1
            simp only [List.length_cons]
            omega
        · simp only [Option.some.injEq] at hstep
          subst hstep
          exact wrap_branch jt B s _ inst rest hex hbA hInv rfl
            (Nat.le_add_right _ _) hcode2
      · simp only [Option.some.injEq] at hstep
        subst hstep
        refine wrap_branch jt B s _ inst rest hex hbA hInv rfl ?_ hbl0.1
        simp only [List.length_cons]
        omega

theorem cfgRun_no_fuelOut (env : DisasmEnv) (jt : List (Nat × List Nat)) (B : Nat)
    (hE : EnvBound env B) :
    ∀ n s, CfgInv B s → cfgMeasure (maxPush jt) B s ≤ n →
      cfgRun env jt n s ≠ CfgOut.outOfFuel := by
  intro n
  induction n with
  | zero =>
    intro s hInv hm
    cases hs : s.stack with
    | nil =>
      rw [cfgRun, hs]
      exact fun h => CfgOut.noConfusion h
    | cons a r =>
      exfalso
      rw [cfgMeasure, hs] at hm
      generalize maxPush jt * (B - s.gph.nodes.length) = Q at hm
      simp only [List.length_cons] at hm
      omega
  | succ n ih =>
    intro s hInv hm
    cases hs : s.stack with
    | nil =>
      rw [cfgRun, hs]
      exact fun h => CfgOut.noConfusion h
    | cons ad rest =>
      rw [cfgRun, hs]
      dsimp only
      cases hpo : processOne env jt s ad rest with
      | none =>
        dsimp only
        exact fun h => CfgOut.noConfusion h
      | some s2 =>
        dsimp only
        have hps := processOne_step env jt B hE s ad rest s2 hInv hpo
        refine ih s2 hps.1 ?_
        have hm2 := hps.2
        rw [cfgMeasure, hs] at hm
        simp only [List.length_cons] at hm
        omega

/-- C4: the worklist loop of `get_graph` cannot run forever.  Whenever the
decoder only produces instructions at addresses below some bound `B` (and
the initial cache respects it), the already-a-node check lets each address
be expanded at most once, every expansion pushes at most
`max 2 (longest registered table)` successors, and the loop reaches a
terminal outcome within a fuel budget computed from `B` — the worklist is
exhausted after finitely many iterations (or, on MIPS, the run stops with
the C10 crash). -/
theorem C4_termination (env : DisasmEnv) (jt : List (Nat × List Nat)) (code : Cache)
    (entry : Nat) (B : Nat) (hE : EnvBound env B)
    (hc : ∀ k i, alookup code k = some i → i.address < B) :
    ∃ fuel, get_graph env jt code fuel entry ≠ CfgOut.outOfFuel := by
  refine ⟨1 + maxPush jt * B, ?_⟩
  rw [get_graph]
  refine cfgRun_no_fuelOut env jt B hE _ _ ⟨List.nodup_nil, ?_, hc⟩ ?_
  · intro a ha
    exact absurd ha (List.not_mem_nil a)
  · rw [cfgMeasure]
    simp [Graph.empty]

/-- C4 witnessed on a four-byte section of sequential instructions. -/
theorem C4_termination_witness :
    ∃ fuel, get_graph envBounded [] [] fuel 0 ≠ CfgOut.outOfFuel := by
  refine C4_termination envBounded [] [] 0 4 ?_ ?_
  · intro d a i hi
    rw [envBounded] at hi
    simp only at hi
    split at hi
    · next ha =>
      simp only [List.mem_singleton] at hi
      subst hi
      exact ha
    · exact absurd hi (List.not_mem_nil i)
  · intro k i h
    simp [alookup] at h

end Reverse
